import Mathlib

/-!
Shallow embedding of the EventDrivenTradingSystem backtest engine
(src/event.py, src/portfolio.py, src/data.py, src/performance.py)
and verification of the specification's claims about it.

Modelling conventions:
* Python floats are modelled as exact rationals (`ℚ`); none of the claims
  hinges on rounding behaviour.
* Python dicts keyed by symbol strings are modelled as association lists
  `List (String × α)`; `dictLookup` returning `none` models a raised
  `KeyError`.
* Fallible Python calls (those that can raise) are modelled as
  `Option`-returning functions; `none` means an exception was raised.
* Timestamps are modelled as naturals (`ℕ`), ordered as dates are.
-/

namespace Edts

/-! ## event.py -/

/-- Model of `event.FillEvent` (src/event.py lines 61-92) after construction:
all fields as stored on the object, `commission` already resolved. -/
structure FillEvent where
  timestamp : ℕ
  symbol : String
  exchange : String
  quantity : ℤ
  direction : String
  fillPrice : ℚ
  commission : ℚ
deriving DecidableEq

/-- Model of `FillEvent.defaultCommission` (src/event.py line 91-92):
`max(10, 0.001 * self.fillPrice * self.quantity)`. -/
def defaultCommission (fillPrice : ℚ) (quantity : ℤ) : ℚ :=
  max 10 (1 / 1000 * fillPrice * quantity)

/-- Model of `FillEvent.__init__` (src/event.py lines 62-89).  The
`commission` parameter is `Option ℚ`: `none` models the Python default
`None`.  The source stores
`commission if commission else self.defaultCommission()`, i.e. it tests
the *truthiness* of the argument, so a supplied `0.0` (falsy) also falls
back to the default; any nonzero supplied value is stored as given. -/
def fillEventInit (timestamp : ℕ) (symbol exchange : String) (quantity : ℤ)
    (direction : String) (fillPrice : ℚ) (commission : Option ℚ) : FillEvent :=
  { timestamp := timestamp
    symbol := symbol
    exchange := exchange
    quantity := quantity
    direction := direction
    fillPrice := fillPrice
    commission :=
      match commission with
      | some c => if c = 0 then defaultCommission fillPrice quantity else c
      | none => defaultCommission fillPrice quantity }

/-! ## Association lists (Python dicts keyed by symbol) -/

/-- Lookup in an association list; `none` models a Python `KeyError`. -/
def dictLookup {α : Type} : List (String × α) → String → Option α
  | [], _ => none
  | (k, v) :: rest, s => if k = s then some v else dictLookup rest s

/-- Replace the value stored under key `s` (models in-place mutation of the
dict entry `d[s]`). -/
def dictUpdate {α : Type} (l : List (String × α)) (s : String) (v : α) :
    List (String × α) :=
  l.map (fun p => if p.1 = s then (p.1, v) else p)

/-! ## portfolio.py -/

/-- Model of one per-symbol dict `{'pos': ..., 'val': ...}` of
`Portfolio.positions`. -/
structure SymPos where
  pos : ℤ
  val : ℚ
deriving DecidableEq

/-- Model of one row of the `Portfolio.positions` DataFrame: the row's
datetime index value, the per-symbol position dicts, and the `cash` and
`total` columns. -/
structure Snapshot where
  timestamp : ℕ
  entries : List (String × SymPos)
  cash : ℚ
  total : ℚ
deriving DecidableEq

/-- Model of the mutable state of a `portfolio.Portfolio` object:
`positions` is the DataFrame of recorded rows, `currentPosition` the
Series `self.positions.iloc[-1]` (a copy whose per-symbol dict cells are
shared by reference with the last DataFrame row, while its scalar
`cash`/`total` cells are independent copies). -/
structure Portfolio where
  univ : List String
  positions : List Snapshot
  currentPosition : Snapshot
deriving DecidableEq

/-- Model of `Portfolio.__init__` (src/portfolio.py lines 6-32).  The
source builds `initialPositions` from
the list comprehension over `self.universe` with per-symbol dicts
holding literally `pos = 1` and `val = 0` in the source — note the initial
position quantity is literally `1` in the source — sets
`cash = total = initialCapital`, records one row indexed at `startDate`,
and sets `currentPosition` to that row. -/
def initPortfolio (univ : List String) (startDate : ℕ)
    (initialCapital : ℚ) : Portfolio :=
  let snap : Snapshot :=
    { timestamp := startDate
      entries := univ.map (fun s => (s, { pos := 1, val := 0 }))
      cash := initialCapital
      total := initialCapital }
  { univ := univ, positions := [snap], currentPosition := snap }

/-- Helper for `updateTimeindex` (src/portfolio.py lines 45-49): for each
symbol of the universe list, carry the quantity forward from the current
position and revalue it at the handler's latest `adj_close`
(`latestClose`).  `none` models a `KeyError` from either dict access. -/
def buildEntries (univ : List String) (entries : List (String × SymPos))
    (latestClose : List (String × ℚ)) : Option (List (String × SymPos)) :=
  match univ with
  | [] => some []
  | s :: rest =>
    match dictLookup entries s, dictLookup latestClose s,
        buildEntries rest entries latestClose with
    | some sp, some c, some es =>
      some ((s, { pos := sp.pos, val := (sp.pos : ℚ) * c }) :: es)
    | _, _, _ => none

/-- Sum of the `val` cells of the per-symbol entries, as accumulated by the
loop `newPosition['total'] += newPosition[s]['val']` (src/portfolio.py
line 49). -/
def sumVals (es : List (String × SymPos)) : ℚ :=
  (es.map (fun p => p.2.val)).sum

/-- Model of `Portfolio.updateTimeindex` (src/portfolio.py lines 34-52).
Parameters `latestDatetime` and `latestClose` are the values the source
reads from the data handler (`getLatestBarDatetime` and per-symbol
`getLatestBarValue(s, 'adj_close')`).  The new row starts from
`cash = currentPosition['cash']`, `total = cash`, then accumulates each
symbol's market value; the row is appended to the DataFrame and becomes
the new `currentPosition`. -/
def updateTimeindex (p : Portfolio) (latestDatetime : ℕ)
    (latestClose : List (String × ℚ)) : Option Portfolio :=
  match buildEntries p.univ p.currentPosition.entries latestClose with
  | none => none
  | some es =>
    let snap : Snapshot :=
      { timestamp := latestDatetime
        entries := es
        cash := p.currentPosition.cash
        total := p.currentPosition.cash + sumVals es }
    some { univ := p.univ
           positions := p.positions ++ [snap]
           currentPosition := snap }

/-- Dict-aliasing effect of a fill on the recorded DataFrame: the
per-symbol dict cells of the last recorded row are the same Python dict
objects as those of `currentPosition`, so mutating them through
`currentPosition` rewrites the last row's `entries`; the scalar
`cash`/`total` cells of the last row are *not* shared (`iloc[-1]` copies
scalars), so they keep their recorded values. -/
def modifyLastEntries (l : List Snapshot) (es : List (String × SymPos)) :
    List Snapshot :=
  match l.getLast? with
  | none => l
  | some last => l.dropLast ++ [{ last with entries := es }]

/-- Model of `Portfolio.updatePositionsFromFill` (src/portfolio.py lines
54-71).  `latestClose` holds the handler's latest `adj_close` per symbol.
The source performs no validation of quantity, price or direction:
`fillDir` is `0` for any direction other than `BUY`/`SELL`.  A fill whose
symbol has no entry raises `KeyError` on line 65 before any mutation
(`none` here).  No row is appended: the update mutates `currentPosition`
in place (see `modifyLastEntries` for what the DataFrame sees). -/
def updatePositionsFromFill (p : Portfolio) (fill : FillEvent)
    (latestClose : List (String × ℚ)) : Option Portfolio :=
  let fillDir : ℤ :=
    if fill.direction = "BUY" then 1
    else if fill.direction = "SELL" then -1 else 0
  match dictLookup p.currentPosition.entries fill.symbol,
      dictLookup latestClose fill.symbol with
  | some sp, some price =>
    let valueDelta : ℚ := ((fill.quantity * fillDir : ℤ) : ℚ) * price
    let sp' : SymPos :=
      { pos := sp.pos + fill.quantity * fillDir
        val := sp.val + valueDelta }
    let cashDelta : ℚ :=
      ((fill.quantity * fillDir : ℤ) : ℚ) * fill.fillPrice + fill.commission
    let es := dictUpdate p.currentPosition.entries fill.symbol sp'
    let cur : Snapshot :=
      { timestamp := p.currentPosition.timestamp
        entries := es
        cash := p.currentPosition.cash - cashDelta
        total := p.currentPosition.total - (cashDelta - valueDelta) }
    some { univ := p.univ
           positions := modifyLastEntries p.positions es
           currentPosition := cur }
  | _, _ => none

/-! ## Driving the portfolio with event sequences -/

/-- An event as dispatched to the Portfolio by the backtest loop.  A
Market event carries the data-handler observations the portfolio reads
while handling it (latest aligned timestamp and latest `adj_close` per
symbol); a Fill event is applied against the prices revealed by the most
recent Market event. -/
inductive PEvent where
  | market (latestDatetime : ℕ) (latestClose : List (String × ℚ))
  | fillEv (fill : FillEvent)
deriving DecidableEq

/-- Portfolio plus the data handler's currently revealed latest closes. -/
structure SimState where
  latestClose : List (String × ℚ)
  port : Portfolio
deriving DecidableEq

/-- Initial simulation state: a freshly constructed Portfolio; no bars
revealed yet. -/
def initSim (univ : List String) (startDate : ℕ)
    (initialCapital : ℚ) : SimState :=
  { latestClose := [], port := initPortfolio univ startDate initialCapital }

/-- Dispatch one event to the portfolio, as the backtest loop does. -/
def processEvent (st : SimState) : PEvent → Option SimState
  | .market t close =>
    match updateTimeindex st.port t close with
    | some p => some { latestClose := close, port := p }
    | none => none
  | .fillEv f =>
    match updatePositionsFromFill st.port f st.latestClose with
    | some p => some { latestClose := st.latestClose, port := p }
    | none => none

/-- Process a sequence of events; `none` as soon as one raises. -/
def processEvents (st : SimState) : List PEvent → Option SimState
  | [] => some st
  | e :: rest =>
    match processEvent st e with
    | some st' => processEvents st' rest
    | none => none

/-! ## Claim-level predicates about the ledger -/

/-- Ledger balance of one snapshot: `total == cash + Σ val`. -/
def ledgerBalanced (snap : Snapshot) : Prop :=
  snap.total = snap.cash + sumVals snap.entries

instance (snap : Snapshot) : Decidable (ledgerBalanced snap) := by
  unfold ledgerBalanced; infer_instance

/-- The per-symbol dict of a snapshot has exactly the universe symbols as
keys, in universe order. -/
def entriesKeyed (univ : List String) (snap : Snapshot) : Prop :=
  snap.entries.map Prod.fst = univ

/-- Strengthened induction invariant for the equity claim: the
portfolio's universe is unchanged, the current position's dict is keyed
exactly by the universe, and the ledger is balanced. -/
def stateInv (univ : List String) (st : SimState) : Prop :=
  st.port.univ = univ ∧ entriesKeyed univ st.port.currentPosition ∧
    ledgerBalanced st.port.currentPosition

/-- Claim-level equity invariant, phrased as the claim states it: after
processing the events, the current `total` equals `cash` plus the sum
over all universe symbols of the per-symbol `val`.  Vacuously true when
the run raises. -/
def equityInvariantAfter (univ : List String) (startDate : ℕ)
    (initialCapital : ℚ) (events : List PEvent) : Bool :=
  match processEvents (initSim univ startDate initialCapital) events with
  | none => true
  | some st =>
    decide (st.port.currentPosition.total =
      st.port.currentPosition.cash +
        (univ.map (fun s =>
          ((dictLookup st.port.currentPosition.entries s).getD
            { pos := 0, val := 0 }).val)).sum)

/-- Frame behaviour of the two mutators on the recorded snapshot rows:
a Market update appends exactly one row leaving every earlier row intact,
a Fill update appends nothing, leaves every row but the last intact, and
leaves even the last row's recorded `cash`, `total` and timestamp
intact (only its per-symbol dicts change, by aliasing). -/
def snapshotFrameOK (p : Portfolio) (t : ℕ) (close : List (String × ℚ))
    (fill : FillEvent) : Bool :=
  (match updateTimeindex p t close with
   | none => true
   | some q => decide (q.positions.dropLast = p.positions)) &&
  (match updatePositionsFromFill p fill close with
   | none => true
   | some q =>
     decide (q.positions.length = p.positions.length) &&
     decide (q.positions.dropLast = p.positions.dropLast) &&
     decide ((q.positions.getLast?).map (fun s => (s.timestamp, s.cash, s.total)) =
       (p.positions.getLast?).map (fun s => (s.timestamp, s.cash, s.total))))

/-! ## data.py -/

/-- Model of one OHLCV row as read from the repository (columns of the
`daily_price` query in `DataSource.getEodData`).  The Lean field for the
`open` column is called `bopen` because `open` is reserved in Lean; the
other fields keep the source column names. -/
structure Bar where
  bopen : ℚ
  high : ℚ
  low : ℚ
  close : ℚ
  adj_close : ℚ
  volume : ℚ
deriving DecidableEq

/-- Row of an aligned (reindexed) per-symbol frame: the timestamp and the
bar, where `none` models an all-NaN row produced by `reindex` for a
timestamp earlier than the symbol's first native date. -/
abbrev BarRow := ℕ × Option Bar

/-- Per-symbol state of an `EODDataHandler`: the not-yet-consumed aligned
rows (the state of the `iterrows()` iterator stored in `allData[s]`) and
the revealed rows (`latestData[s]`). -/
structure SymStream where
  symbol : String
  remaining : List BarRow
  revealed : List BarRow
deriving DecidableEq

/-- Model of the mutable state of an `EODDataHandler`: one stream per
universe symbol, the `continueBacktest` flag, and the number of
`MarketEvent`s appended to the event queue so far. -/
structure Feed where
  streams : List SymStream
  continueBacktest : Bool
  queuedMarketEvents : ℕ
deriving DecidableEq

/-- Insert a timestamp into a sorted deduplicated index, keeping it
sorted and deduplicated. -/
def sortedInsert (t : ℕ) : List ℕ → List ℕ
  | [] => [t]
  | x :: xs =>
    if t < x then t :: x :: xs
    else if x < t then x :: sortedInsert t xs
    else x :: xs

/-- Sorted deduplicating union of two timestamp indexes; models
`pandas.Index.union` (src/data.py line 68), whose result is the sorted
set union of the two `DatetimeIndex`es. -/
def mergeUnion (xs ys : List ℕ) : List ℕ :=
  ys.foldl (fun acc y => sortedInsert y acc) xs

/-- Value `pandas.reindex(..., method='pad')` places at label `t`: the
row of the greatest original label at or before `t`, or NaN (`none`) when
no such label exists.  For a list sorted by timestamp this walks the
whole series keeping the last row whose timestamp is at most `t`. -/
def padLookup : List (ℕ × Bar) → ℕ → Option Bar
  | [], _ => none
  | (t0, b0) :: rest, t =>
    if t0 ≤ t then
      match padLookup rest t with
      | some b => some b
      | none => some b0
    else padLookup rest t

/-- Model of `self.allData[s].reindex(index=combinedIndex, method='pad')`
(src/data.py line 74). -/
def reindexPad (series : List (ℕ × Bar)) (idx : List ℕ) : List BarRow :=
  idx.map (fun t => (t, padLookup series t))

/-- The combined index built in the constructor loop (src/data.py lines
60-70): starting from nothing, union each symbol's native index in
universe order. -/
def combinedIndexOf (datas : List (String × List (ℕ × Bar))) : List ℕ :=
  datas.foldl (fun acc sd => mergeUnion acc (sd.2.map Prod.fst)) []

/-- The per-symbol raw series fetched by `self.dataSource.getEodData(s,
startDate, endDate)` for each universe symbol (src/data.py line 62).
`raw` is the repository's response keyed by symbol (already filtered to
the date range); a symbol missing from the repository raises
(`ValueError` in `DataSource.getAssetId`), modelled as `none`. -/
def allDataOf (univ : List String) (raw : List (String × List (ℕ × Bar))) :
    Option (List (String × List (ℕ × Bar))) :=
  match univ with
  | [] => some []
  | s :: rest =>
    match dictLookup raw s, allDataOf rest raw with
    | some series, some tl => some ((s, series) :: tl)
    | _, _ => none

/-- Model of `EODDataHandler.__init__` (src/data.py lines 50-74): fetch
each symbol's series, build the combined (union) index, reindex every
series onto it with forward fill, start with empty `latestData`,
`continueBacktest = True`, and nothing enqueued. -/
def initFeed (univ : List String) (raw : List (String × List (ℕ × Bar))) :
    Option Feed :=
  match allDataOf univ raw with
  | none => none
  | some datas =>
    some { streams := datas.map (fun sd =>
             { symbol := sd.1
               remaining := reindexPad sd.2 (combinedIndexOf datas)
               revealed := [] })
           continueBacktest := true
           queuedMarketEvents := 0 }

/-- One symbol's share of `updateBars`: `next(...)` on the symbol's
iterator either yields the next aligned row (appended to `latestData[s]`)
or, when exhausted, leaves the data untouched (the `StopIteration`
branch). -/
def advanceStream (st : SymStream) : SymStream :=
  match st.remaining with
  | [] => st
  | r :: rest =>
    { symbol := st.symbol, remaining := rest, revealed := st.revealed ++ [r] }

/-- Model of `EODDataHandler.updateBars` (src/data.py lines 95-104): for
every universe symbol, pull the next aligned row if any, setting
`continueBacktest = False` when some symbol's iterator is exhausted; then
append one `MarketEvent` to the event queue — the enqueue on line 104 is
unconditional, it happens whether or not any symbol was exhausted. -/
def updateBars (f : Feed) : Feed :=
  { streams := f.streams.map advanceStream
    continueBacktest :=
      if f.streams.any (fun st => st.remaining.isEmpty) then false
      else f.continueBacktest
    queuedMarketEvents := f.queuedMarketEvents + 1 }

/-- Dict access `self.latestData[symbol]` via the stream list; `none`
models the `KeyError` for a symbol outside the universe. -/
def findStream (f : Feed) (symbol : String) : Option SymStream :=
  f.streams.find? (fun st => st.symbol == symbol)

/-- Model of `EODDataHandler.getLatestBar` (src/data.py lines 80-81):
`self.latestData[symbol][-1]`; `none` models `KeyError` (unknown symbol)
or `IndexError` (no bar revealed yet). -/
def getLatestBar (f : Feed) (symbol : String) : Option BarRow :=
  match findStream f symbol with
  | none => none
  | some st => st.revealed.getLast?

/-- Python list slice `l[-n:]`: for `n = 0` this is `l[0:]`, the whole
list; for `n ≥ 1` it returns the last `min n (length l)` elements and in
particular never fails when `n` exceeds the length. -/
def pyLastSlice {α : Type} (l : List α) (n : ℕ) : List α :=
  if n = 0 then l else l.drop (l.length - n)

/-- Model of `EODDataHandler.getLatestBars` (src/data.py lines 83-84):
`self.latestData[symbol][-N:]`.  Only an unknown symbol raises; an
oversized `N` silently returns a shorter list. -/
def getLatestBars (f : Feed) (symbol : String) (n : ℕ) :
    Option (List BarRow) :=
  match findStream f symbol with
  | none => none
  | some st => some (pyLastSlice st.revealed n)

/-- Model of `EODDataHandler.getLatestBarDatetime` (src/data.py lines
86-87): the timestamp component of the latest revealed row. -/
def getLatestBarDatetime (f : Feed) (symbol : String) : Option ℕ :=
  (getLatestBar f symbol).map Prod.fst

/-- Column access `row[columnName]` on a bar; `none` models the
`KeyError` for an unknown column name. -/
def barColumn (b : Bar) (columnName : String) : Option ℚ :=
  if columnName = "open" then some b.bopen
  else if columnName = "high" then some b.high
  else if columnName = "low" then some b.low
  else if columnName = "close" then some b.close
  else if columnName = "adj_close" then some b.adj_close
  else if columnName = "volume" then some b.volume
  else none

/-- True when the column name is one of the frame's columns. -/
def validColumn (columnName : String) : Bool :=
  columnName == "open" || columnName == "high" || columnName == "low" ||
  columnName == "close" || columnName == "adj_close" || columnName == "volume"

/-- Value of one aligned row at a column: outer `none` models a raised
`KeyError` (unknown column); `some none` models reading a NaN cell of an
all-NaN reindexed row. -/
def rowValue (r : BarRow) (columnName : String) : Option (Option ℚ) :=
  match r.2 with
  | some b => (barColumn b columnName).map some
  | none => if validColumn columnName then some none else none

/-- Model of `EODDataHandler.getLatestBarValue` (src/data.py lines
89-90): `self.getLatestBar(symbol)[1][columnName]`. -/
def getLatestBarValue (f : Feed) (symbol columnName : String) :
    Option (Option ℚ) :=
  match getLatestBar f symbol with
  | none => none
  | some r => rowValue r columnName

/-- Column values of a list of aligned rows; raises as soon as one row
access raises. -/
def rowsValues (rows : List BarRow) (columnName : String) :
    Option (List (Option ℚ)) :=
  match rows with
  | [] => some []
  | r :: rest =>
    match rowValue r columnName, rowsValues rest columnName with
    | some v, some vs => some (v :: vs)
    | _, _ => none

/-- Model of `EODDataHandler.getLatestBarsValues` (src/data.py lines
92-93): the list comprehension of column values over `getLatestBars`. -/
def getLatestBarsValues (f : Feed) (symbol columnName : String) (n : ℕ) :
    Option (List (Option ℚ)) :=
  match getLatestBars f symbol n with
  | none => none
  | some rows => rowsValues rows columnName

/-- Forward-fill correctness of one aligned cell with respect to the
symbol's native series: a filled cell holds the bar of the greatest
native timestamp at or before the cell's timestamp; a NaN cell means
every native timestamp lies strictly after it. -/
def padCellOK (series : List (ℕ × Bar)) (t : ℕ) (v : Option Bar) : Prop :=
  match v with
  | some b => ∃ p ∈ series, p.2 = b ∧ p.1 ≤ t ∧
      ∀ q ∈ series, q.1 ≤ t → q.1 ≤ p.1
  | none => ∀ q ∈ series, t < q.1

instance (series : List (ℕ × Bar)) (t : ℕ) (v : Option Bar) :
    Decidable (padCellOK series t v) := by
  unfold padCellOK; cases v <;> infer_instance

/-- Claim-level alignment invariant of a constructed feed: the combined
index is strictly increasing, every symbol's aligned series carries
exactly the combined index (hence identical length and timestamp
sequence across symbols), and every cell satisfies the forward-fill
(pad) property with respect to that symbol's native series.  Vacuously
true when construction raises. -/
def feedAlignmentOK (univ : List String)
    (raw : List (String × List (ℕ × Bar))) : Bool :=
  match allDataOf univ raw with
  | none => true
  | some datas =>
    let combined := combinedIndexOf datas
    decide (List.Pairwise (fun a b => a < b) combined) &&
    decide (∀ t ∈ combined, ∃ sd ∈ datas, t ∈ sd.2.map Prod.fst) &&
    decide (∀ sd ∈ datas, ∀ t ∈ sd.2.map Prod.fst, t ∈ combined) &&
    decide (∀ sd ∈ datas,
      (reindexPad sd.2 combined).map Prod.fst = combined ∧
      (reindexPad sd.2 combined).length = combined.length ∧
      ∀ c ∈ reindexPad sd.2 combined, padCellOK sd.2 c.1 c.2)

/-! ## performance.py -/

/-- Mean of a return series (`pandas.Series.mean`), used inside the
standard deviation; only meaningful for nonempty series. -/
def seriesMean (returns : List ℚ) : ℚ :=
  returns.sum / returns.length

/-- Sample variance with `ddof = 1`, the square of `pandas.Series.std()`
as used by `annualVolatility` (src/performance.py line 25): `none`
models the NaN that pandas returns for series of length below 2. -/
def sampleVariance (returns : List ℚ) : Option ℚ :=
  if returns.length < 2 then none
  else some (((returns.map (fun r => (r - seriesMean returns) ^ 2)).sum) /
    (returns.length - 1))

/-- Square of `annualVolatility(returns, periods)` (src/performance.py
line 25, `returns.std() * periods ** 0.5`): squaring avoids the
irrational square roots while preserving exactly when the volatility is
zero or NaN. -/
def annualVolatilitySq (returns : List ℚ) (periods : ℕ) : Option ℚ :=
  (sampleVariance returns).map (fun v => v * periods)

/-- Outcome of evaluating the single return expression of `sharpeRatio`
(src/performance.py line 39) under numpy float semantics.
`quotientValue`: the division has a nonzero finite divisor and the
function returns the value of `(CAGR(returns, periods) - rfr) /
annualVolatility(returns, periods)`.  `nonFiniteFloat`: the divisor is
zero or NaN, so the division silently yields `inf`, `-inf` or `nan` (a
numpy warning at most).  `raisedError`: an exception is raised — no
branch of the source produces this. -/
inductive SharpeOutcome where
  | quotientValue
  | nonFiniteFloat
  | raisedError
deriving DecidableEq

/-- Model of the control-flow outcome of `sharpeRatio(returns, periods,
rfr)` (src/performance.py lines 27-39): the function performs no
zero-volatility check and never raises; it returns the quotient, which is
non-finite exactly when the annualised volatility is zero or NaN. -/
def sharpeRatioOutcome (returns : List ℚ) (periods : ℕ) : SharpeOutcome :=
  match annualVolatilitySq returns periods with
  | none => .nonFiniteFloat
  | some v => if v = 0 then .nonFiniteFloat else .quotientValue

/-! ## Theorems -/

/-- Claim C6: a `FillEvent` constructed without a supplied commission
stores `max(10, 0.001 * fillPrice * quantity)`; in particular quantity
100 at fill price 50 with no explicit commission gets commission 10. -/
theorem claim6_default_commission (ts : ℕ) (sym exch dir : String)
    (qty : ℤ) (price : ℚ) :
    (fillEventInit ts sym exch qty dir price none).commission
      = max 10 (1 / 1000 * price * qty)
    ∧ (fillEventInit ts sym exch 100 dir 50 none).commission = 10 := by
  refine ⟨rfl, ?_⟩
  norm_num [fillEventInit, defaultCommission]

/-- Claim C10: the `FillEvent` constructor tests the truthiness of the
supplied commission, not its presence: an explicitly supplied commission
of `0` is replaced by the default, while any nonzero supplied commission
is stored as given. -/
theorem claim10_commission_truthiness (ts : ℕ) (sym exch dir : String)
    (qty : ℤ) (price : ℚ) :
    ((fillEventInit ts sym exch qty dir price (some 0)).commission
      = defaultCommission price qty)
    ∧ ∀ c : ℚ, c ≠ 0 →
        (fillEventInit ts sym exch qty dir price (some c)).commission = c := by
  constructor
  · simp [fillEventInit]
  · intro c hc
    simp [fillEventInit, hc]

/-- Witness for claim C10 at concrete inputs: a supplied commission of 0
falls back to the default, a supplied commission of 7 is stored. -/
theorem claim10_witness :
    ((fillEventInit 1 "A" "ARCA" 100 "BUY" 50 (some 0)).commission
      = defaultCommission 50 100)
    ∧ (fillEventInit 1 "A" "ARCA" 100 "BUY" 50 (some 7)).commission = 7 :=
  ⟨(claim10_commission_truthiness 1 "A" "ARCA" "BUY" 100 50).1,
   (claim10_commission_truthiness 1 "A" "ARCA" "BUY" 100 50).2 7 (by decide)⟩

/-- Claim C3, evaluated at the failing input (universe `["GOOG"]`, start
date 0, initial capital 10000): at construction cash, total equity, the
snapshot count and the start-date snapshot all match the claim, and every
symbol's market value is 0, but the initial position *quantity* is 1, not
0 — the source writes `pos = 1` where `Portfolio.updateTimeindex` and the
spec both use 0, so the constructed ledger silently holds one phantom
unit of every symbol. -/
theorem claim3_initial_state_bug :
    (initPortfolio ["GOOG"] 0 10000).currentPosition.cash = 10000 ∧
    (initPortfolio ["GOOG"] 0 10000).currentPosition.total = 10000 ∧
    (initPortfolio ["GOOG"] 0 10000).positions.length = 1 ∧
    (initPortfolio ["GOOG"] 0 10000).currentPosition.timestamp = 0 ∧
    dictLookup (initPortfolio ["GOOG"] 0 10000).currentPosition.entries "GOOG"
      = some { pos := 1, val := 0 } ∧
    (dictLookup (initPortfolio ["GOOG"] 0 10000).currentPosition.entries
      "GOOG").map SymPos.pos ≠ some 0 := by
  decide

/-- Counterexample to claim C4: a Fill with quantity 0 (default
commission 10) against a one-symbol portfolio is not rejected — the
update succeeds and mutates the ledger, dropping cash from 10000 to 9990
(the commission is charged). -/
theorem claim4_counterexample :
    (updatePositionsFromFill (initPortfolio ["A"] 0 10000)
        (fillEventInit 1 "A" "ARCA" 0 "BUY" 50 none) [("A", 100)]).map
      (fun q => q.currentPosition.cash) = some 9990 ∧
    (9990 : ℚ) ≠ 10000 := by
  refine ⟨?_, by norm_num⟩
  norm_num [updatePositionsFromFill, initPortfolio, fillEventInit,
    defaultCommission, dictLookup, dictUpdate, modifyLastEntries]

/-- Counterexample to claim C5: applying a Fill appends no snapshot row —
the history still has 1 row, not 2 — and rewrites the per-symbol dicts of
the already-recorded construction snapshot in place (its entry for `A`
becomes quantity 11, market value 1000). -/
theorem claim5_counterexample :
    (updatePositionsFromFill (initPortfolio ["A"] 0 10000)
        (fillEventInit 1 "A" "ARCA" 10 "BUY" 100 (some 10)) [("A", 100)]).map
      (fun q => (q.positions.length, q.positions.map Snapshot.entries))
      = some (1, [[("A", { pos := 11, val := 1000 })]]) ∧
    (1 : ℕ) ≠ (initPortfolio ["A"] 0 10000).positions.length + 1 := by
  constructor
  · norm_num [updatePositionsFromFill, initPortfolio, fillEventInit,
      defaultCommission, dictLookup, dictUpdate, modifyLastEntries,
      Snapshot.mk.injEq, SymPos.mk.injEq]
  · norm_num [initPortfolio]

/-- Counterexample to claim C2: a feed over one symbol with a single
aligned row.  The second `updateBars` call finds the series exhausted and
sets `continueBacktest` to false — but still appends a `MarketEvent`: the
queue count goes to 2, not the 1 the claim requires. -/
theorem claim2_counterexample :
    (initFeed ["A"] [("A", [(0,
        { bopen := 1, high := 1, low := 1, close := 1, adj_close := 1,
          volume := 1 })])]).map
      (fun f =>
        ((updateBars (updateBars f)).continueBacktest,
         (updateBars (updateBars f)).queuedMarketEvents))
      = some (false, 2) ∧ (2 : ℕ) ≠ 1 := by
  refine ⟨?_, by norm_num⟩
  norm_num [initFeed, allDataOf, dictLookup, combinedIndexOf, mergeUnion,
    sortedInsert, reindexPad, padLookup, updateBars, advanceStream]

/-- Counterexample to claim C7: after a single advance has revealed one
bar, requesting the latest 2 bars does not fail — `getLatestBars` returns
the shorter, 1-element history (Python slice semantics of
`latestData[symbol][-N:]`). -/
theorem claim7_counterexample :
    (initFeed ["A"] [("A", [(0,
        { bopen := 1, high := 1, low := 1, close := 1, adj_close := 1,
          volume := 1 })])]).map
      (fun f => getLatestBars (updateBars f) "A" 2)
      = some (some [(0, some
        { bopen := 1, high := 1, low := 1, close := 1, adj_close := 1,
          volume := 1 })]) ∧
    [(0 : ℕ)].length < 2 := by
  refine ⟨?_, by norm_num⟩
  norm_num [initFeed, allDataOf, dictLookup, combinedIndexOf, mergeUnion,
    sortedInsert, reindexPad, padLookup, updateBars, advanceStream,
    getLatestBars, findStream, pyLastSlice]

/-- Claim C2 as amended: once any symbol's aligned series is exhausted,
`updateBars` sets `continueBacktest` to false, but it still appends
exactly one `MarketEvent` to the queue on that very call — completion is
signalled only through the flag, not by withholding the event. -/
theorem claim2_amended (f : Feed)
    (h : f.streams.any (fun st => st.remaining.isEmpty) = true) :
    (updateBars f).continueBacktest = false ∧
    (updateBars f).queuedMarketEvents = f.queuedMarketEvents + 1 := by
  unfold updateBars
  simp [h]

/-- Witness for claim C2 at a concrete exhausted feed. -/
theorem claim2_witness :
    (updateBars (Feed.mk [SymStream.mk "A" [] []] true 1)).continueBacktest = false ∧
    (updateBars (Feed.mk [SymStream.mk "A" [] []] true 1)).queuedMarketEvents
      = 1 + 1 :=
  claim2_amended (Feed.mk [SymStream.mk "A" [] []] true 1) (by decide)

/-- Claim C4 as amended: a Fill whose symbol has no entry in the current
position dict (i.e. lies outside the universe) raises a `KeyError` from
the very first dict access, before any mutation, so the ledger is left
unchanged — but this is the *only* rejection: there is no validation of
quantity, price or direction, and any fill whose symbol is known to the
ledger and to the data handler is applied unconditionally, zero or
negative quantities and prices included. -/
theorem claim4_amended (p : Portfolio) (fill : FillEvent)
    (latestClose : List (String × ℚ)) :
    (dictLookup p.currentPosition.entries fill.symbol = none →
      updatePositionsFromFill p fill latestClose = none) ∧
    (∀ sp price, dictLookup p.currentPosition.entries fill.symbol = some sp →
      dictLookup latestClose fill.symbol = some price →
      (updatePositionsFromFill p fill latestClose).isSome = true) := by
  constructor
  · intro h
    unfold updatePositionsFromFill
    rw [h]
  · intro sp price h1 h2
    unfold updatePositionsFromFill
    rw [h1, h2]
    rfl

/-- Witness for claim C4: an unknown-symbol fill raises, a known-symbol
fill (even one with negative quantity) is applied. -/
theorem claim4_witness :
    updatePositionsFromFill (initPortfolio ["A"] 0 10000)
      (fillEventInit 1 "ZZZ" "ARCA" 5 "BUY" 50 (some 3)) [("A", 100)] = none ∧
    (updatePositionsFromFill (initPortfolio ["A"] 0 10000)
      (fillEventInit 1 "A" "ARCA" (-5) "BUY" 50 (some 3)) [("A", 100)]).isSome
        = true :=
  ⟨(claim4_amended (initPortfolio ["A"] 0 10000)
      (fillEventInit 1 "ZZZ" "ARCA" 5 "BUY" 50 (some 3)) [("A", 100)]).1
      (by decide),
   (claim4_amended (initPortfolio ["A"] 0 10000)
      (fillEventInit 1 "A" "ARCA" (-5) "BUY" 50 (some 3)) [("A", 100)]).2
      { pos := 1, val := 0 } 100 (by decide) (by decide)⟩

/-- Length of `modifyLastEntries` equals the original length. -/
theorem modifyLastEntries_length (l : List Snapshot)
    (es : List (String × SymPos)) :
    (modifyLastEntries l es).length = l.length := by
  unfold modifyLastEntries
  cases h : l.getLast? with
  | none => rfl
  | some last =>
    have hne : l ≠ [] := by
      intro he
      rw [he] at h
      exact Option.noConfusion h
    have hpos : 0 < l.length := List.length_pos.mpr hne
    simp [List.length_dropLast]
    omega

/-- All rows except the last are untouched by `modifyLastEntries`. -/
theorem modifyLastEntries_dropLast (l : List Snapshot)
    (es : List (String × SymPos)) :
    (modifyLastEntries l es).dropLast = l.dropLast := by
  unfold modifyLastEntries
  cases h : l.getLast? with
  | none => rfl
  | some last => simp [List.dropLast_concat]

/-- The scalar cells of the last row are untouched by
`modifyLastEntries` (only the entries component changes). -/
theorem modifyLastEntries_scalars (l : List Snapshot)
    (es : List (String × SymPos)) :
    ((modifyLastEntries l es).getLast?).map
        (fun s => (s.timestamp, s.cash, s.total))
      = (l.getLast?).map (fun s => (s.timestamp, s.cash, s.total)) := by
  unfold modifyLastEntries
  cases h : l.getLast? with
  | none => simp [h]
  | some last => simp [List.getLast?_concat, h]

/-- Claim C5 as amended: `updateTimeindex` appends exactly one snapshot
row, leaving every previously recorded row intact; but
`updatePositionsFromFill` appends nothing — it leaves the row count and
all rows but the last intact and rewrites only the last recorded row's
per-symbol dicts in place (its recorded `cash`, `total` and timestamp
cells are untouched). -/
theorem claim5_amended (p : Portfolio) (t : ℕ) (close : List (String × ℚ))
    (fill : FillEvent) : snapshotFrameOK p t close fill = true := by
  unfold snapshotFrameOK
  apply Bool.and_eq_true_iff.mpr
  constructor
  · cases h : updateTimeindex p t close with
    | none => rfl
    | some q =>
      unfold updateTimeindex at h
      cases hb : buildEntries p.univ p.currentPosition.entries close with
      | none => rw [hb] at h; exact Option.noConfusion h
      | some es =>
        rw [hb] at h
        simp only [Option.some.injEq] at h
        subst h
        simp [List.dropLast_concat]
  · cases h : updatePositionsFromFill p fill close with
    | none => rfl
    | some q =>
      unfold updatePositionsFromFill at h
      cases h1 : dictLookup p.currentPosition.entries fill.symbol with
      | none => rw [h1] at h; exact Option.noConfusion h
      | some sp =>
        cases h2 : dictLookup close fill.symbol with
        | none => rw [h1, h2] at h; exact Option.noConfusion h
        | some price =>
          rw [h1, h2] at h
          simp only [Option.some.injEq] at h
          subst h
          simp [modifyLastEntries_length, modifyLastEntries_dropLast,
            modifyLastEntries_scalars]

/-- Length of a Python `l[-n:]` slice: the whole list for `n = 0`, and
the last `min n (length l)` elements otherwise — never an error. -/
theorem pyLastSlice_length {α : Type} (l : List α) (n : ℕ) :
    (pyLastSlice l n).length = if n = 0 then l.length else min n l.length := by
  unfold pyLastSlice
  by_cases h : n = 0
  · simp [h]
  · simp [h, List.length_drop]
    omega

/-- Claim C7 as amended: every read accessor raises for a symbol outside
the universe, and the single-bar accessors (`getLatestBar`,
`getLatestBarDatetime`, `getLatestBarValue`) raise when no bar has been
revealed yet; but `getLatestBars` (and so `getLatestBarsValues`) never
rejects an oversized request — `latestData[symbol][-N:]` silently
returns the shorter revealed history. -/
theorem claim7_amended (f : Feed) (s c : String) (n : ℕ) :
    (findStream f s = none →
      getLatestBar f s = none ∧ getLatestBars f s n = none ∧
      getLatestBarDatetime f s = none ∧ getLatestBarValue f s c = none ∧
      getLatestBarsValues f s c n = none) ∧
    (∀ st, findStream f s = some st → st.revealed = [] →
      getLatestBar f s = none ∧ getLatestBarDatetime f s = none ∧
      getLatestBarValue f s c = none) ∧
    (∀ st, findStream f s = some st →
      getLatestBars f s n = some (pyLastSlice st.revealed n) ∧
      (pyLastSlice st.revealed n).length
        = if n = 0 then st.revealed.length else min n st.revealed.length) := by
  refine ⟨?_, ?_, ?_⟩
  · intro h
    refine ⟨?_, ?_, ?_, ?_, ?_⟩ <;>
      simp [getLatestBar, getLatestBars, getLatestBarDatetime,
        getLatestBarValue, getLatestBarsValues, h]
  · intro st hst hrev
    refine ⟨?_, ?_, ?_⟩ <;>
      simp [getLatestBar, getLatestBarDatetime, getLatestBarValue, hst, hrev]
  · intro st hst
    exact ⟨by simp [getLatestBars, hst], pyLastSlice_length st.revealed n⟩

/-- Witness for claim C7 at concrete feeds: unknown symbol raises; known
symbol with empty history raises on `getLatestBar`; known symbol with one
revealed row answers an oversized `getLatestBars` request with the
shorter list. -/
theorem claim7_witness :
    (getLatestBar (Feed.mk [SymStream.mk "A" [] []] true 0) "ZZZ" = none) ∧
    (getLatestBar (Feed.mk [SymStream.mk "A" [] []] true 0) "A" = none) ∧
    (getLatestBars (Feed.mk [SymStream.mk "A" [] [(3, none)]] true 1) "A" 5
      = some (pyLastSlice [((3 : ℕ), (none : Option Bar))] 5)) :=
  ⟨((claim7_amended (Feed.mk [SymStream.mk "A" [] []] true 0)
      "ZZZ" "adj_close" 5).1 (by decide)).1,
   ((claim7_amended (Feed.mk [SymStream.mk "A" [] []] true 0)
      "A" "adj_close" 5).2.1 (SymStream.mk "A" [] []) (by decide) (by decide)).1,
   ((claim7_amended (Feed.mk [SymStream.mk "A" [] [(3, none)]] true 1)
      "A" "adj_close" 5).2.2 (SymStream.mk "A" [] [(3, none)]) (by decide)).1⟩

/-- Claim C9 as amended: `sharpeRatio` performs no zero-volatility check
and never raises: it always returns the value of the quotient
`(CAGR(returns, periods) - rfr) / annualVolatility(returns, periods)`;
when the annualised volatility is zero (or NaN, for series shorter than
2) that quotient is a silently returned non-finite float, and only with
nonzero finite volatility is it the finite quotient value. -/
theorem claim9_amended (returns : List ℚ) (periods : ℕ) :
    (annualVolatilitySq returns periods = some 0 →
      sharpeRatioOutcome returns periods = SharpeOutcome.nonFiniteFloat) ∧
    sharpeRatioOutcome returns periods ≠ SharpeOutcome.raisedError ∧
    (∀ v, annualVolatilitySq returns periods = some v → v ≠ 0 →
      sharpeRatioOutcome returns periods = SharpeOutcome.quotientValue) := by
  refine ⟨?_, ?_, ?_⟩
  · intro h
    unfold sharpeRatioOutcome
    rw [h]
    simp
  · unfold sharpeRatioOutcome
    cases h : annualVolatilitySq returns periods with
    | none => simp
    | some v =>
      by_cases hv : v = 0 <;> simp [hv]
  · intro v h hv
    unfold sharpeRatioOutcome
    rw [h]
    simp [hv]

/-- Witness for claim C9: a zero-variance series gives the silent
non-finite outcome; a series with nonzero variance gives the quotient. -/
theorem claim9_witness :
    sharpeRatioOutcome [0, 0] 252 = SharpeOutcome.nonFiniteFloat ∧
    sharpeRatioOutcome [0, 1 / 10] 252 ≠ SharpeOutcome.raisedError ∧
    sharpeRatioOutcome [0, 1 / 10] 252 = SharpeOutcome.quotientValue :=
  ⟨(claim9_amended [0, 0] 252).1
      (by norm_num [annualVolatilitySq, sampleVariance, seriesMean]),
   (claim9_amended [0, 1 / 10] 252).2.1,
   (claim9_amended [0, 1 / 10] 252).2.2 (63 / 50)
      (by norm_num [annualVolatilitySq, sampleVariance, seriesMean])
      (by norm_num)⟩

/-- Counterexample to claim C9: the constant return series `[0, 0]` has
zero sample variance, hence zero annualised volatility, and
`sharpeRatio` silently evaluates its quotient to a non-finite float — it
does not raise a domain error. -/
theorem claim9_counterexample :
    annualVolatilitySq [0, 0] 252 = some 0 ∧
    sharpeRatioOutcome [0, 0] 252 = SharpeOutcome.nonFiniteFloat ∧
    SharpeOutcome.nonFiniteFloat ≠ SharpeOutcome.raisedError := by
  have hv : annualVolatilitySq [0, 0] 252 = some 0 := by
    norm_num [annualVolatilitySq, sampleVariance, seriesMean]
  refine ⟨hv, ?_, by decide⟩
  rw [sharpeRatioOutcome, hv]
  norm_num

/-- Successful `buildEntries` produces a dict keyed by the universe, in
universe order. -/
theorem buildEntries_keys (univ : List String)
    (entries : List (String × SymPos)) (close : List (String × ℚ))
    (es : List (String × SymPos))
    (h : buildEntries univ entries close = some es) :
    es.map Prod.fst = univ := by
  induction univ generalizing es with
  | nil =>
    unfold buildEntries at h
    simp only [Option.some.injEq] at h
    subst h
    rfl
  | cons s rest ih =>
    unfold buildEntries at h
    cases h1 : dictLookup entries s with
    | none => rw [h1] at h; exact Option.noConfusion h
    | some sp =>
      cases h2 : dictLookup close s with
      | none => rw [h1, h2] at h; exact Option.noConfusion h
      | some c =>
        cases h3 : buildEntries rest entries close with
        | none => rw [h1, h2, h3] at h; exact Option.noConfusion h
        | some tl =>
          rw [h1, h2, h3] at h
          simp only [Option.some.injEq] at h
          subst h
          simp [ih tl h3]

/-- Updating one key leaves the key sequence of the dict unchanged. -/
theorem dictUpdate_keys {α : Type} (l : List (String × α)) (s : String)
    (v : α) : (dictUpdate l s v).map Prod.fst = l.map Prod.fst := by
  induction l with
  | nil => rfl
  | cons p rest ih =>
    unfold dictUpdate at ih ⊢
    by_cases h : p.1 = s <;> simp [h, ih]

/-- Updating a key that is not present leaves the dict unchanged. -/
theorem dictUpdate_not_mem {α : Type} (l : List (String × α)) (s : String)
    (v : α) (h : s ∉ l.map Prod.fst) : dictUpdate l s v = l := by
  induction l with
  | nil => rfl
  | cons p rest ih =>
    simp only [List.map_cons, List.mem_cons] at h
    push_neg at h
    unfold dictUpdate at ih ⊢
    simp [Ne.symm h.1, ih h.2]

/-- Effect of a single-key update on the summed market values, for a
dict with no duplicate keys. -/
theorem dictUpdate_sumVals (l : List (String × SymPos)) (s : String)
    (sp v : SymPos) (hnd : (l.map Prod.fst).Nodup)
    (h : dictLookup l s = some sp) :
    sumVals (dictUpdate l s v) = sumVals l - sp.val + v.val := by
  induction l with
  | nil => exact Option.noConfusion h
  | cons p rest ih =>
    simp only [List.map_cons, List.nodup_cons] at hnd
    unfold dictLookup at h
    by_cases hps : p.1 = s
    · rw [if_pos hps] at h
      simp only [Option.some.injEq] at h
      subst h
      have hrest : dictUpdate rest s v = rest := by
        apply dictUpdate_not_mem
        rw [← hps]
        exact hnd.1
      unfold dictUpdate
      simp only [List.map_cons]
      rw [if_pos hps]
      show sumVals ((p.1, v) :: rest.map (fun q => if q.1 = s then (q.1, v) else q))
        = sumVals (p :: rest) - p.2.val + v.val
      have : rest.map (fun q => if q.1 = s then (q.1, v) else q) = rest := hrest
      rw [this]
      simp [sumVals]
      ring
    · rw [if_neg hps] at h
      unfold dictUpdate
      simp only [List.map_cons]
      rw [if_neg hps]
      show sumVals (p :: dictUpdate rest s v) = sumVals (p :: rest) - sp.val + v.val
      have := ih hnd.2 h
      simp [sumVals] at this ⊢
      rw [this]
      ring

/-- Unfolding lemma for `dictLookup` on a nonempty dict. -/
theorem dictLookup_cons {α : Type} (k : String) (v : α)
    (rest : List (String × α)) (s : String) :
    dictLookup ((k, v) :: rest) s
      = if k = s then some v else dictLookup rest s := rfl

/-- Over a duplicate-free key sequence, summing the looked-up market
values over the keys equals summing the dict's values directly. -/
theorem dictLookup_sum_eq (es : List (String × SymPos))
    (hnd : (es.map Prod.fst).Nodup) :
    ((es.map Prod.fst).map (fun s =>
        ((dictLookup es s).getD { pos := 0, val := 0 }).val)).sum
      = sumVals es := by
  induction es with
  | nil => rfl
  | cons p rest ih =>
    simp only [List.map_cons, List.nodup_cons] at hnd
    have hhead : dictLookup (p :: rest) p.1 = some p.2 := by
      rw [show (p : String × SymPos) = (p.1, p.2) from rfl, dictLookup_cons,
        if_pos rfl]
    have htail : ∀ s ∈ rest.map Prod.fst,
        ((dictLookup (p :: rest) s).getD { pos := 0, val := 0 }).val
          = ((dictLookup rest s).getD { pos := 0, val := 0 }).val := by
      intro s hs
      have hne : p.1 ≠ s := by
        intro he
        exact hnd.1 (he ▸ hs)
      rw [show (p : String × SymPos) = (p.1, p.2) from rfl, dictLookup_cons,
        if_neg hne]
    simp only [List.map_cons, List.sum_cons, hhead]
    rw [List.map_congr_left htail, ih hnd.2]
    simp [sumVals]

/-- Dispatching one event preserves the strengthened ledger invariant. -/
theorem processEvent_inv (univ : List String) (st st' : SimState)
    (e : PEvent) (hnd : univ.Nodup) (hinv : stateInv univ st)
    (h : processEvent st e = some st') : stateInv univ st' := by
  obtain ⟨hu, hk, hb⟩ := hinv
  cases e with
  | market t close =>
    simp only [processEvent] at h
    cases hm : updateTimeindex st.port t close with
    | none => rw [hm] at h; exact Option.noConfusion h
    | some p =>
      rw [hm] at h
      simp only [Option.some.injEq] at h
      subst h
      unfold updateTimeindex at hm
      cases hbe : buildEntries st.port.univ st.port.currentPosition.entries close with
      | none => rw [hbe] at hm; exact Option.noConfusion hm
      | some es =>
        rw [hbe] at hm
        simp only [Option.some.injEq] at hm
        subst hm
        refine ⟨hu, ?_, ?_⟩
        · exact hu ▸ buildEntries_keys _ _ _ _ hbe
        · show st.port.currentPosition.cash + sumVals es
            = st.port.currentPosition.cash + sumVals es
          rfl
  | fillEv fill =>
    simp only [processEvent] at h
    cases hm : updatePositionsFromFill st.port fill st.latestClose with
    | none => rw [hm] at h; exact Option.noConfusion h
    | some p =>
      rw [hm] at h
      simp only [Option.some.injEq] at h
      subst h
      unfold updatePositionsFromFill at hm
      cases h1 : dictLookup st.port.currentPosition.entries fill.symbol with
      | none => rw [h1] at hm; exact Option.noConfusion hm
      | some sp =>
        cases h2 : dictLookup st.latestClose fill.symbol with
        | none => rw [h1, h2] at hm; exact Option.noConfusion hm
        | some price =>
          rw [h1, h2] at hm
          simp only [Option.some.injEq] at hm
          subst hm
          have hknd : (st.port.currentPosition.entries.map Prod.fst).Nodup := by
            rw [hk]
            exact hnd
          refine ⟨hu, ?_, ?_⟩
          · show (dictUpdate st.port.currentPosition.entries fill.symbol _).map
              Prod.fst = univ
            rw [dictUpdate_keys]
            exact hk
          · show st.port.currentPosition.total - _ = st.port.currentPosition.cash - _ +
              sumVals (dictUpdate st.port.currentPosition.entries fill.symbol _)
            rw [dictUpdate_sumVals _ _ sp _ hknd h1]
            rw [hb]
            show _ = _ + (sumVals st.port.currentPosition.entries - sp.val +
              (sp.val + _))
            ring

/-- Processing an event sequence preserves the strengthened invariant. -/
theorem processEvents_inv (univ : List String) (events : List PEvent)
    (st st' : SimState) (hnd : univ.Nodup) (hinv : stateInv univ st)
    (h : processEvents st events = some st') : stateInv univ st' := by
  induction events generalizing st with
  | nil =>
    unfold processEvents at h
    simp only [Option.some.injEq] at h
    subst h
    exact hinv
  | cons e rest ih =>
    unfold processEvents at h
    cases h1 : processEvent st e with
    | none => rw [h1] at h; exact Option.noConfusion h
    | some st1 =>
      rw [h1] at h
      exact ih st1 (processEvent_inv univ st st1 e hnd hinv h1) h

/-- A freshly constructed simulation state satisfies the invariant. -/
theorem initSim_inv (univ : List String) (startDate : ℕ)
    (initialCapital : ℚ) : stateInv univ (initSim univ startDate initialCapital) := by
  refine ⟨rfl, ?_, ?_⟩
  · have h : ∀ l : List String,
        (l.map (fun s => (s, ({ pos := 1, val := 0 } : SymPos)))).map Prod.fst
          = l := by
      intro l
      induction l with
      | nil => rfl
      | cons a t ih =>
        simp only [List.map_cons]
        rw [ih]
    exact h univ
  · show initialCapital = initialCapital +
      sumVals (univ.map (fun s => (s, { pos := 1, val := 0 })))
    have : sumVals (univ.map (fun s => (s, ({ pos := 1, val := 0 } : SymPos)))) = 0 := by
      induction univ with
      | nil => rfl
      | cons s rest ih => simp [sumVals] at ih ⊢; exact ih
    rw [this, add_zero]

/-- Claim C1: for every universe (with distinct symbols), start date,
initial capital and sequence of Market and Fill events, whenever
processing succeeds the resulting ledger state satisfies
`total == cash + Σ over universe symbols of the per-symbol val`.  Since
the event sequence is arbitrary, every prefix — i.e. the state after
each individual update — satisfies the invariant as well. -/
theorem claim1_equity_invariant (univ : List String) (startDate : ℕ)
    (initialCapital : ℚ) (events : List PEvent) (hnd : univ.Nodup) :
    equityInvariantAfter univ startDate initialCapital events = true := by
  unfold equityInvariantAfter
  cases h : processEvents (initSim univ startDate initialCapital) events with
  | none => rfl
  | some st =>
    apply decide_eq_true
    obtain ⟨hu, hk, hb⟩ := processEvents_inv univ events _ st hnd
      (initSim_inv univ startDate initialCapital) h
    have hknd : (st.port.currentPosition.entries.map Prod.fst).Nodup := by
      rw [hk]; exact hnd
    have := dictLookup_sum_eq st.port.currentPosition.entries hknd
    rw [hk] at this
    rw [this]
    exact hb

/-- Membership after a sorted insert. -/
theorem sortedInsert_mem (t a : ℕ) (l : List ℕ) :
    a ∈ sortedInsert t l ↔ a = t ∨ a ∈ l := by
  induction l with
  | nil => simp [sortedInsert]
  | cons x xs ih =>
    simp only [sortedInsert]
    by_cases h1 : t < x
    · simp only [if_pos h1, List.mem_cons]
    · rw [if_neg h1]
      by_cases h2 : x < t
      · simp only [if_pos h2, List.mem_cons, ih]
        tauto
      · have hxt : x = t := le_antisymm (not_lt.mp h1) (not_lt.mp h2)
        rw [if_neg h2]
        constructor
        · intro ha
          exact Or.inr ha
        · rintro (rfl | ha)
          · subst hxt
            exact List.mem_cons_self _ _
          · exact ha

/-- A sorted insert preserves strict sortedness. -/
theorem sortedInsert_pairwise (t : ℕ) (l : List ℕ)
    (h : List.Pairwise (· < ·) l) :
    List.Pairwise (· < ·) (sortedInsert t l) := by
  induction l with
  | nil => simp [sortedInsert]
  | cons x xs ih =>
    rw [List.pairwise_cons] at h
    obtain ⟨hx, hxs⟩ := h
    simp only [sortedInsert]
    by_cases h1 : t < x
    · rw [if_pos h1]
      refine List.pairwise_cons.mpr ⟨?_, List.pairwise_cons.mpr ⟨hx, hxs⟩⟩
      intro y hy
      rcases List.mem_cons.mp hy with rfl | hy'
      · exact h1
      · exact lt_trans h1 (hx y hy')
    · rw [if_neg h1]
      by_cases h2 : x < t
      · rw [if_pos h2]
        refine List.pairwise_cons.mpr ⟨?_, ih hxs⟩
        intro y hy
        rcases (sortedInsert_mem t y xs).mp hy with rfl | hy'
        · exact h2
        · exact hx y hy'
      · rw [if_neg h2]
        exact List.pairwise_cons.mpr ⟨hx, hxs⟩

/-- The index union of a sorted index with any index is sorted. -/
theorem mergeUnion_pairwise (xs ys : List ℕ)
    (h : List.Pairwise (· < ·) xs) :
    List.Pairwise (· < ·) (mergeUnion xs ys) := by
  induction ys generalizing xs with
  | nil => exact h
  | cons y ys ih =>
    show List.Pairwise (· < ·) (mergeUnion (sortedInsert y xs) ys)
    exact ih _ (sortedInsert_pairwise y xs h)

/-- Membership in the index union. -/
theorem mergeUnion_mem (xs ys : List ℕ) (a : ℕ) :
    a ∈ mergeUnion xs ys ↔ a ∈ xs ∨ a ∈ ys := by
  induction ys generalizing xs with
  | nil => simp [mergeUnion]
  | cons y ys ih =>
    show a ∈ mergeUnion (sortedInsert y xs) ys ↔ _
    rw [ih, sortedInsert_mem]
    simp only [List.mem_cons]
    tauto

/-- The combined index built by the feed constructor is strictly
increasing: no aligned bar can be chronologically out of order. -/
theorem combinedIndexOf_pairwise (datas : List (String × List (ℕ × Bar))) :
    List.Pairwise (· < ·) (combinedIndexOf datas) := by
  suffices h : ∀ acc : List ℕ, List.Pairwise (· < ·) acc →
      List.Pairwise (· < ·)
        (datas.foldl (fun acc sd => mergeUnion acc (sd.2.map Prod.fst)) acc) by
    exact h [] List.Pairwise.nil
  induction datas with
  | nil => intro acc hacc; exact hacc
  | cons d ds ih =>
    intro acc hacc
    exact ih _ (mergeUnion_pairwise _ _ hacc)

/-- The combined index is exactly the union of the symbols' native
timestamp sequences. -/
theorem combinedIndexOf_mem (datas : List (String × List (ℕ × Bar)))
    (t : ℕ) :
    t ∈ combinedIndexOf datas ↔ ∃ sd ∈ datas, t ∈ sd.2.map Prod.fst := by
  suffices h : ∀ acc : List ℕ,
      (t ∈ datas.foldl (fun acc sd => mergeUnion acc (sd.2.map Prod.fst)) acc
        ↔ t ∈ acc ∨ ∃ sd ∈ datas, t ∈ sd.2.map Prod.fst) by
    have := h []
    simpa using this
  induction datas with
  | nil => intro acc; simp
  | cons d ds ih =>
    intro acc
    show t ∈ ds.foldl _ (mergeUnion acc (d.2.map Prod.fst)) ↔ _
    rw [ih, mergeUnion_mem]
    constructor
    · rintro ((h | h) | ⟨sd, hsd, h⟩)
      · exact Or.inl h
      · exact Or.inr ⟨d, List.mem_cons_self _ _, h⟩
      · exact Or.inr ⟨sd, List.mem_cons_of_mem _ hsd, h⟩
    · rintro (h | ⟨sd, hsd, h⟩)
      · exact Or.inl (Or.inl h)
      · rcases List.mem_cons.mp hsd with rfl | hsd'
        · exact Or.inl (Or.inr h)
        · exact Or.inr ⟨sd, hsd', h⟩

/-- A pad lookup yields NaN exactly when every native timestamp lies
strictly after the requested one. -/
theorem padLookup_none_iff (series : List (ℕ × Bar)) (t : ℕ) :
    padLookup series t = none ↔ ∀ p ∈ series, t < p.1 := by
  induction series with
  | nil => simp [padLookup]
  | cons q rest ih =>
    obtain ⟨t0, b0⟩ := q
    by_cases h : t0 ≤ t
    · apply iff_of_false
      · simp only [padLookup, if_pos h]
        cases hr : padLookup rest t <;> simp
      · intro hall
        exact absurd (hall (t0, b0) (List.mem_cons_self _ _)) (not_lt.mpr h)
    · simp only [padLookup, if_neg h]
      rw [ih]
      constructor
      · intro hr p hp
        rcases List.mem_cons.mp hp with rfl | hp'
        · exact not_le.mp h
        · exact hr p hp'
      · intro hall p hp
        exact hall p (List.mem_cons_of_mem _ hp)

/-- A successful pad lookup on a sorted series returns the bar of the
greatest native timestamp at or before the requested one. -/
theorem padLookup_some_spec (series : List (ℕ × Bar)) (t : ℕ) (b : Bar)
    (hp : List.Pairwise (fun a b => a.1 < b.1) series)
    (h : padLookup series t = some b) :
    ∃ p ∈ series, p.2 = b ∧ p.1 ≤ t ∧ ∀ q ∈ series, q.1 ≤ t → q.1 ≤ p.1 := by
  induction series with
  | nil => exact Option.noConfusion h
  | cons q rest ih =>
    obtain ⟨t0, b0⟩ := q
    rw [List.pairwise_cons] at hp
    obtain ⟨hhead, htail⟩ := hp
    by_cases h0 : t0 ≤ t
    · simp only [padLookup, if_pos h0] at h
      cases hr : padLookup rest t with
      | some b' =>
        rw [hr] at h
        simp only [Option.some.injEq] at h
        subst h
        obtain ⟨p, hpmem, hpb, hpt, hmax⟩ := ih htail hr
        refine ⟨p, List.mem_cons_of_mem _ hpmem, hpb, hpt, ?_⟩
        intro q hq hqt
        rcases List.mem_cons.mp hq with rfl | hq'
        · exact le_of_lt (hhead p hpmem)
        · exact hmax q hq' hqt
      | none =>
        rw [hr] at h
        simp only [Option.some.injEq] at h
        subst h
        refine ⟨(t0, b0), List.mem_cons_self _ _, rfl, h0, ?_⟩
        intro q hq hqt
        rcases List.mem_cons.mp hq with rfl | hq'
        · exact le_refl _
        · have := (padLookup_none_iff rest t).mp hr q hq'
          omega
    · simp only [padLookup, if_neg h0] at h
      obtain ⟨p, hpmem, hpb, hpt, hmax⟩ := ih htail h
      refine ⟨p, List.mem_cons_of_mem _ hpmem, hpb, hpt, ?_⟩
      intro q hq hqt
      rcases List.mem_cons.mp hq with rfl | hq'
      · omega
      · exact hmax q hq' hqt

/-- A successful dict lookup certifies membership of the key-value pair. -/
theorem dictLookup_mem {α : Type} (l : List (String × α)) (s : String)
    (v : α) (h : dictLookup l s = some v) : (s, v) ∈ l := by
  induction l with
  | nil => exact Option.noConfusion h
  | cons p rest ih =>
    obtain ⟨k, w⟩ := p
    rw [dictLookup_cons] at h
    by_cases hk : k = s
    · rw [if_pos hk] at h
      simp only [Option.some.injEq] at h
      subst hk
      subst h
      exact List.mem_cons_self _ _
    · rw [if_neg hk] at h
      exact List.mem_cons_of_mem _ (ih h)

/-- Every fetched per-symbol series of the feed constructor comes from
the repository response. -/
theorem allDataOf_mem (univ : List String)
    (raw datas : List (String × List (ℕ × Bar)))
    (h : allDataOf univ raw = some datas) :
    ∀ sd ∈ datas, (sd.1, sd.2) ∈ raw := by
  induction univ generalizing datas with
  | nil =>
    unfold allDataOf at h
    simp only [Option.some.injEq] at h
    subst h
    intro sd hsd
    exact absurd hsd (List.not_mem_nil _)
  | cons s rest ih =>
    unfold allDataOf at h
    cases h1 : dictLookup raw s with
    | none => rw [h1] at h; exact Option.noConfusion h
    | some series =>
      cases h2 : allDataOf rest raw with
      | none => rw [h1, h2] at h; exact Option.noConfusion h
      | some tl =>
        rw [h1, h2] at h
        simp only [Option.some.injEq] at h
        subst h
        intro sd hsd
        rcases List.mem_cons.mp hsd with rfl | hsd'
        · exact dictLookup_mem raw s series h1
        · exact ih tl h2 sd hsd'

/-- Reindexing carries exactly the target index as timestamps. -/
theorem reindexPad_fst (series : List (ℕ × Bar)) (idx : List ℕ) :
    (reindexPad series idx).map Prod.fst = idx := by
  induction idx with
  | nil => rfl
  | cons t ts ih =>
    simp only [reindexPad, List.map_cons] at ih ⊢
    rw [ih]

/-- Claim C8: for every constructed feed whose repository series are
chronologically sorted, the combined index is strictly increasing, it is
exactly the union of all symbols' native timestamps, every symbol's
aligned series has exactly that index as its timestamp sequence (hence
identical length and timestamps across symbols), and every aligned cell
is the forward-filled (pad) value of the symbol's native series. -/
theorem claim8_alignment (univ : List String)
    (raw : List (String × List (ℕ × Bar)))
    (hs : ∀ pr ∈ raw, List.Pairwise (fun a b => a.1 < b.1) pr.2) :
    feedAlignmentOK univ raw = true := by
  unfold feedAlignmentOK
  cases h : allDataOf univ raw with
  | none => rfl
  | some datas =>
    simp only [Bool.and_eq_true, decide_eq_true_eq]
    refine ⟨⟨⟨?_, ?_⟩, ?_⟩, ?_⟩
    · exact combinedIndexOf_pairwise datas
    · intro t ht
      exact (combinedIndexOf_mem datas t).mp ht
    · intro sd hsd t ht
      exact (combinedIndexOf_mem datas t).mpr ⟨sd, hsd, ht⟩
    · intro sd hsd
      refine ⟨reindexPad_fst _ _, ?_, ?_⟩
      · unfold reindexPad
        rw [List.length_map]
      · intro c hc
        obtain ⟨t, ht, rfl⟩ := List.mem_map.mp hc
        show padCellOK sd.2 t (padLookup sd.2 t)
        have hsorted : List.Pairwise (fun a b => a.1 < b.1) sd.2 :=
          hs (sd.1, sd.2) (allDataOf_mem univ raw datas h sd hsd)
        cases hp : padLookup sd.2 t with
        | none => exact (padLookup_none_iff sd.2 t).mp hp
        | some b => exact padLookup_some_spec sd.2 t b hsorted hp

/-- Witness for claim C8: a two-symbol feed with interleaved, sorted
native series. -/
theorem claim8_witness :
    feedAlignmentOK ["A", "B"]
      [("A", [(1, Bar.mk 1 1 1 1 1 1), (3, Bar.mk 1 1 1 1 1 1)]),
       ("B", [(2, Bar.mk 2 2 2 2 2 2)])] = true :=
  claim8_alignment ["A", "B"]
    [("A", [(1, Bar.mk 1 1 1 1 1 1), (3, Bar.mk 1 1 1 1 1 1)]),
     ("B", [(2, Bar.mk 2 2 2 2 2 2)])] (by decide)

/-- Witness for claim C1: a concrete run — one Market event then one BUY
fill — over universe `["A"]`. -/
theorem claim1_witness :
    equityInvariantAfter ["A"] 0 10000
      [PEvent.market 1 [("A", 100)],
       PEvent.fillEv (fillEventInit 1 "A" "ARCA" 10 "BUY" 100 none)] = true :=
  claim1_equity_invariant ["A"] 0 10000
    [PEvent.market 1 [("A", 100)],
     PEvent.fillEv (fillEventInit 1 "A" "ARCA" 10 "BUY" 100 none)] (by decide)

end Edts
